import Mathlib

/-!
# A monotonic-clock condition variable (`cyan::condition_variable`)

Shallow embedding of `src/condition_variable.h`.

* Durations and time points of `std::chrono` are a tick count together with a period, a
  positive rational number of seconds per tick. `duration_cast` truncates toward zero
  (C++ integer division), conversions to a common type go through `duration_cast`, as in
  the library.
* The tick count is the 64-bit signed `rep` of the library. The arithmetic of counts is a
  parameter `w : Int → Int`, applied to the result of every multiplication, addition and
  subtraction of counts: `wrap64` is the two's-complement wrap of the machine and `id` is
  exact integer arithmetic.
* Clock samples, return codes of the pthread calls and the values of the caller's
  predicate are inputs: an environment gives, for every logical instant (the number
  of events that happened so far), what a sample or a call made at that instant
  yields. Every operation appends the events it performs to a trace.
* A failed `assert` aborts the process; it is the result `Res.abort`. The embedding
  is of the build with assertions enabled.
* Loops take a fuel argument; running out of fuel is the result `Res.out_of_fuel`.
-/

namespace cyan

/-! ## std::chrono durations -/

/-- The period of a duration type, `std::ratio<num, den>` seconds per tick. -/
structure Period where
  num : Nat
  den : Nat
  num_pos : 0 < num
  den_pos : 0 < den

/-- A `std::chrono::duration` (or the time since epoch of a `time_point`): a tick
count and the period of its type. -/
structure Dur where
  count : Int
  period : Period

/-- The period `std::ratio<1>` of `std::chrono::seconds`. -/
def seconds : Period := ⟨1, 1, by decide, by decide⟩

/-- The period `std::nano` of `std::chrono::nanoseconds`. -/
def nanoseconds : Period := ⟨1, 1000000000, by decide, by decide⟩

/-- The period `std::milli` of `std::chrono::milliseconds`. -/
def milliseconds : Period := ⟨1, 1000, by decide, by decide⟩

/-- The value a 64-bit signed integer holds after an operation whose exact result is `x`:
`x` reduced modulo 2^64 into `[-2^63, 2^63)`. -/
def wrap64 (x : Int) : Int :=
  (x + 9223372036854775808) % 18446744073709551616 - 9223372036854775808

/-- The reduced quotient `std::ratio_divide<p, q>`. -/
def ratio_divide (p q : Period) : Period :=
  ⟨p.num * q.den / Nat.gcd (p.num * q.den) (p.den * q.num),
   p.den * q.num / Nat.gcd (p.num * q.den) (p.den * q.num),
   Nat.div_pos (Nat.le_of_dvd (Nat.mul_pos p.num_pos q.den_pos) (Nat.gcd_dvd_left _ _))
     (Nat.gcd_pos_of_pos_left _ (Nat.mul_pos p.num_pos q.den_pos)),
   Nat.div_pos (Nat.le_of_dvd (Nat.mul_pos p.den_pos q.num_pos) (Nat.gcd_dvd_right _ _))
     (Nat.gcd_pos_of_pos_left _ (Nat.mul_pos p.num_pos q.den_pos))⟩

/-- The conversion `std::chrono::duration_cast<ToDur>(d)`: the count is scaled by the
conversion factor `CF = ratio_divide<Period, ToPeriod>`, with the four cases of the
library; `/` of C++ is division truncating toward zero, and the product is computed in
the arithmetic `w`. -/
def duration_cast (w : Int → Int) (tp : Period) (d : Dur) : Dur :=
  let cf := ratio_divide d.period tp
  if cf.num = 1 then
    if cf.den = 1 then ⟨d.count, tp⟩
    else ⟨d.count.tdiv cf.den, tp⟩
  else
    if cf.den = 1 then ⟨w (d.count * cf.num), tp⟩
    else ⟨(w (d.count * cf.num)).tdiv cf.den, tp⟩

/-- The period of `std::common_type<duration<R1, p>, duration<R2, q>>`:
`ratio<gcd(p.num, q.num), (p.den / gcd(p.den, q.den)) * q.den>`. -/
def common_period (p q : Period) : Period :=
  ⟨Nat.gcd p.num q.num, p.den / Nat.gcd p.den q.den * q.den,
   Nat.gcd_pos_of_pos_left _ p.num_pos,
   Nat.mul_pos (Nat.div_pos (Nat.le_of_dvd p.den_pos (Nat.gcd_dvd_left _ _))
     (Nat.gcd_pos_of_pos_left _ p.den_pos)) q.den_pos⟩

/-- The comparison `a < b` of two durations (or two time points of one clock): both are
converted to the common type and the counts are compared. -/
def Dur.lt (w : Int → Int) (a b : Dur) : Bool :=
  decide ((duration_cast w (common_period a.period b.period) a).count
    < (duration_cast w (common_period a.period b.period) b).count)

/-- The sum `a + b` of two durations (or of a time point and a duration): both are
converted to the common type and the counts are added. -/
def Dur.add (w : Int → Int) (a b : Dur) : Dur :=
  ⟨w ((duration_cast w (common_period a.period b.period) a).count
    + (duration_cast w (common_period a.period b.period) b).count),
   common_period a.period b.period⟩

/-- The difference `a - b` of two durations (or of two time points of one clock): both
are converted to the common type and the counts are subtracted. -/
def Dur.sub (w : Int → Int) (a b : Dur) : Dur :=
  ⟨w ((duration_cast w (common_period a.period b.period) a).count
    - (duration_cast w (common_period a.period b.period) b).count),
   common_period a.period b.period⟩

/-- The conversion `std::chrono::time_point_cast<ToDur>(t)`, a `duration_cast` of the
time since epoch. -/
def time_point_cast (w : Int → Int) (tp : Period) (t : Dur) : Dur :=
  duration_cast w tp t

/-! ## cyan::ceil -/

/-- The helper `cyan::__ceil_impl(__t, __u)`: `(__t < __u) ? (__t + _Tp{1}) : __t`. -/
def __ceil_impl (w : Int → Int) (t u : Dur) : Dur :=
  if Dur.lt w t u then Dur.add w t ⟨1, t.period⟩ else t

/-- The function `cyan::ceil<_ToDur>(__d)`:
`__ceil_impl(duration_cast<_ToDur>(__d), __d)`. -/
def ceil (w : Int → Int) (tp : Period) (d : Dur) : Dur :=
  __ceil_impl w (duration_cast w tp d) d

/-! ## Exact lengths and absence of overflow (specification only) -/

/-- The exact length of a duration in seconds. -/
def Dur.val (d : Dur) : ℚ :=
  (d.count : ℚ) * (d.period.num : ℚ) / (d.period.den : ℚ)

/-- The exact length of one tick in seconds. -/
def Period.val (p : Period) : ℚ :=
  (p.num : ℚ) / (p.den : ℚ)

/-- The product of `duration_cast<ToDur>(d)` does not overflow: the arithmetic `w` keeps
its exact value. -/
def duration_cast_fits (w : Int → Int) (tp : Period) (d : Dur) : Bool :=
  decide (w (d.count * (ratio_divide d.period tp).num)
    = d.count * (ratio_divide d.period tp).num)

/-- The two conversions to the common type that `a < b` makes do not overflow. -/
def Dur.lt_fits (w : Int → Int) (a b : Dur) : Bool :=
  duration_cast_fits w (common_period a.period b.period) a
    && duration_cast_fits w (common_period a.period b.period) b

/-- Neither the two conversions to the common type nor the addition of `a + b`
overflows. -/
def Dur.add_fits (w : Int → Int) (a b : Dur) : Bool :=
  Dur.lt_fits w a b
    && decide (w (Dur.add id a b).count = (Dur.add id a b).count)

/-- Neither the two conversions to the common type nor the subtraction of `a - b`
overflows. -/
def Dur.sub_fits (w : Int → Int) (a b : Dur) : Bool :=
  Dur.lt_fits w a b
    && decide (w (Dur.sub id a b).count = (Dur.sub id a b).count)

/-- No step of `cyan::ceil<ToDur>(d)` overflows: the conversion of `d`, the comparison of
the converted duration with `d`, and the addition of one tick. -/
def ceil_fits (w : Int → Int) (tp : Period) (d : Dur) : Bool :=
  duration_cast_fits w tp d
    && Dur.lt_fits w (duration_cast id tp d) d
    && Dur.add_fits w (duration_cast id tp d) ⟨1, (duration_cast id tp d).period⟩

/-! ## The environment: clocks, the pthread calls, the caller's predicate -/

/-- The enumeration `cyan::cv_status`. -/
inductive cv_status where
  | no_timeout
  | timeout
  deriving DecidableEq, Repr

/-- What depends on the platform: the period of `steady_clock::duration`, the value of the
errno constant `ETIMEDOUT` (from the system headers), and the arithmetic `wrap` of the
`rep` of the durations. -/
structure Platform where
  steady_period : Period
  ETIMEDOUT : Int
  wrap : Int → Int

/-- The platform of the library on Linux: `steady_clock` counts nanoseconds, `ETIMEDOUT`
is 110 and the `rep` of the durations is a 64-bit signed integer. -/
def linux : Platform := ⟨nanoseconds, 110, wrap64⟩

/-- An observable step of an operation of the condition variable. -/
inductive Event where
  /-- A call of `steady_clock::now()` and the tick count it returned. -/
  | steady_now (t : Int)
  /-- A call of `_Clock::now()` of the caller's clock and the tick count it returned. -/
  | caller_now (t : Int)
  /-- A call of `pthread_cond_signal` and its return code. -/
  | cond_signal (r : Int)
  /-- A call of `pthread_cond_broadcast` and its return code. -/
  | cond_broadcast (r : Int)
  /-- A call of `pthread_cond_wait` and its return code. -/
  | cond_wait (r : Int)
  /-- A call of `pthread_cond_timedwait` with `__ts = {tv_sec, tv_nsec}` and its return
  code. -/
  | cond_timedwait (tv_sec tv_nsec r : Int)
  /-- A call `__p()` of the caller's predicate and its value. -/
  | predicate (b : Bool)
  deriving DecidableEq, Repr

/-- The world around a call. The argument of each field is the logical instant, the
number of events that happened before: `steady n` is what `steady_clock::now()` returns
when called at instant `n` (in ticks of `steady_clock::duration`), `caller n` what the
caller's `_Clock::now()` returns (in ticks of `_Clock::duration`), `os n` the return code
of a pthread call made at instant `n`, and `pred n` the value of the caller's predicate
evaluated at instant `n`. -/
structure Env where
  steady : Nat → Int
  caller : Nat → Int
  os : Nat → Int
  pred : Nat → Bool

/-- The outcome of an operation: it returns a value, or a failed `assert` aborts the
process, or the fuel of the model ran out inside a loop. Returning and aborting carry the
trace of the events so far, the most recent first. -/
inductive Res (α : Type) where
  | ret (a : α) (tr : List Event)
  | abort (tr : List Event)
  | out_of_fuel
  deriving DecidableEq, Repr

/-- The clock of the time point given to `wait_until`, which selects the overload:
`steady_clock`, or another clock (`system_clock` or a user clock) with the period of its
`duration`. -/
inductive Clock where
  | steady
  | other (period : Period)

/-! ## cyan::condition_variable -/

/-- The member `notify_one()`: `assert(!pthread_cond_signal(&_M_cond))`. -/
def notify_one (env : Env) (tr : List Event) : Res Unit :=
  let r := env.os tr.length
  if r = 0 then .ret () (.cond_signal r :: tr) else .abort (.cond_signal r :: tr)

/-- The member `notify_all()`: `assert(!pthread_cond_broadcast(&_M_cond))`. -/
def notify_all (env : Env) (tr : List Event) : Res Unit :=
  let r := env.os tr.length
  if r = 0 then .ret () (.cond_broadcast r :: tr) else .abort (.cond_broadcast r :: tr)

/-- The member `wait(__lock)`: `assert(!pthread_cond_wait(&_M_cond, ...))`. -/
def wait (env : Env) (tr : List Event) : Res Unit :=
  let r := env.os tr.length
  if r = 0 then .ret () (.cond_wait r :: tr) else .abort (.cond_wait r :: tr)

/-- The member `wait(__lock, __p)`: `while (!__p()) wait(__lock);`. -/
def wait_pred (env : Env) : Nat → List Event → Res Unit
  | 0, _ => .out_of_fuel
  | fuel + 1, tr =>
    let b := env.pred tr.length
    if b then .ret () (.predicate b :: tr)
    else
      match wait env (.predicate b :: tr) with
      | .ret _ tr1 => wait_pred env fuel tr1
      | .abort tr1 => .abort tr1
      | .out_of_fuel => .out_of_fuel

/-- The pair `{tv_sec, tv_nsec}` that `__wait_until_impl` builds for `__ts`:
`__s = time_point_cast<seconds>(__atime)`,
`__ns = duration_cast<nanoseconds>(__atime - __s)`. The two `static_cast`s, to
`std::time_t` and to `long`, are between 64-bit signed types and keep the value. -/
def __ts (w : Int → Int) (atime : Dur) : Int × Int :=
  let s := time_point_cast w seconds atime
  let ns := duration_cast w nanoseconds (Dur.sub w atime s)
  (s.count, ns.count)

/-- The private member `__wait_until_impl(__lock, __atime)`. -/
def __wait_until_impl (P : Platform) (env : Env) (tr : List Event) (atime : Dur) :
    Res cv_status :=
  let ts := __ts P.wrap atime
  let r := env.os tr.length
  let tr1 := Event.cond_timedwait ts.1 ts.2 r :: tr
  if r = 0 ∨ r = P.ETIMEDOUT then
    let now : Dur := ⟨env.steady tr1.length, P.steady_period⟩
    .ret (if Dur.lt P.wrap now atime then cv_status.no_timeout else cv_status.timeout)
      (.steady_now now.count :: tr1)
  else .abort tr1

/-- The overload of `wait_until(__lock, __atime)` for a time point of `steady_clock`. -/
def wait_until_steady (P : Platform) (env : Env) (tr : List Event) (atime : Dur) :
    Res cv_status :=
  __wait_until_impl P env tr atime

/-- The local `__s_atime` of the overload of `wait_until` for any clock, from the two
entry samples: `__delta = __atime - __c_entry`,
`__s_atime = __s_entry + ceil<__s_dur>(__delta)`, with `ps` the period of `__s_dur`. -/
def __s_atime (w : Int → Int) (ps : Period) (c_entry s_entry atime : Dur) : Dur :=
  let delta := Dur.sub w atime c_entry
  Dur.add w s_entry (ceil w ps delta)

/-- The overload of `wait_until(__lock, __atime)` for a time point of any clock `_Clock`,
whose `duration` has period `pc`. -/
def wait_until_generic (P : Platform) (env : Env) (pc : Period) (tr : List Event)
    (atime : Dur) : Res cv_status :=
  let c_entry : Dur := ⟨env.caller tr.length, pc⟩
  let tr1 := Event.caller_now c_entry.count :: tr
  let s_entry : Dur := ⟨env.steady tr1.length, P.steady_period⟩
  let tr2 := Event.steady_now s_entry.count :: tr1
  match __wait_until_impl P env tr2
      (__s_atime P.wrap P.steady_period c_entry s_entry atime) with
  | .ret .no_timeout tr3 => .ret .no_timeout tr3
  | .ret .timeout tr3 =>
    let c_now : Dur := ⟨env.caller tr3.length, pc⟩
    if Dur.lt P.wrap c_now atime then .ret .no_timeout (.caller_now c_now.count :: tr3)
    else .ret .timeout (.caller_now c_now.count :: tr3)
  | .abort tr3 => .abort tr3
  | .out_of_fuel => .out_of_fuel

/-- The overload of `wait_until(__lock, __atime)` for a time point of `system_clock`:
`return wait_until<system_clock, _Duration>(__lock, __atime);`. -/
def wait_until_system (P : Platform) (env : Env) (pc : Period) (tr : List Event)
    (atime : Dur) : Res cv_status :=
  wait_until_generic P env pc tr atime

/-- The call `wait_until(__lock, __atime)` as overload resolution selects it from the
clock of `__atime`. -/
def wait_until (P : Platform) (env : Env) (c : Clock) (tr : List Event) (atime : Dur) :
    Res cv_status :=
  match c with
  | .steady => wait_until_steady P env tr atime
  | .other pc => wait_until_generic P env pc tr atime

/-- The member `wait_until(__lock, __atime, __p)`:
`while (!__p()) if (wait_until(__lock, __atime) == cv_status::timeout) return __p();`
`return true;`. -/
def wait_until_pred (P : Platform) (env : Env) (c : Clock) (atime : Dur) :
    Nat → List Event → Res Bool
  | 0, _ => .out_of_fuel
  | fuel + 1, tr =>
    let b := env.pred tr.length
    if b then .ret true (.predicate b :: tr)
    else
      match wait_until P env c (.predicate b :: tr) atime with
      | .ret .timeout tr1 => .ret (env.pred tr1.length) (.predicate (env.pred tr1.length) :: tr1)
      | .ret .no_timeout tr1 => wait_until_pred P env c atime fuel tr1
      | .abort tr1 => .abort tr1
      | .out_of_fuel => .out_of_fuel

/-- The member `wait_for(__lock, __rtime)`:
`return wait_until(__lock, steady_clock::now() + ceil<__dur>(__rtime));`. -/
def wait_for (P : Platform) (env : Env) (tr : List Event) (rtime : Dur) : Res cv_status :=
  let now : Dur := ⟨env.steady tr.length, P.steady_period⟩
  wait_until P env .steady (.steady_now now.count :: tr)
    (Dur.add P.wrap now (ceil P.wrap P.steady_period rtime))

/-- The member `wait_for(__lock, __rtime, __p)`:
`return wait_until(__lock, steady_clock::now() + ceil<__dur>(__rtime), std::move(__p));`. -/
def wait_for_pred (P : Platform) (env : Env) (rtime : Dur) (fuel : Nat) (tr : List Event) :
    Res Bool :=
  let now : Dur := ⟨env.steady tr.length, P.steady_period⟩
  wait_until_pred P env .steady (Dur.add P.wrap now (ceil P.wrap P.steady_period rtime)) fuel
    (.steady_now now.count :: tr)

/-! ## Shapes of traces -/

/-- The trace after `n` more rounds of the loop of `wait(__lock, __p)`, the most recent
event first: a round is an evaluation of the predicate that yields false followed by a
call of `pthread_cond_wait` that returns 0. -/
def wait_rounds : Nat → List Event → List Event
  | 0, tr => tr
  | n + 1, tr => wait_rounds n (.cond_wait 0 :: .predicate false :: tr)

/-- The number of calls of `pthread_cond_wait` in a trace. -/
def cond_waits : List Event → Nat
  | [] => 0
  | .cond_wait _ :: tr => cond_waits tr + 1
  | _ :: tr => cond_waits tr

/-- The number of evaluations of the predicate that yielded false in a trace. -/
def false_evaluations : List Event → Nat
  | [] => 0
  | .predicate false :: tr => false_evaluations tr + 1
  | _ :: tr => false_evaluations tr

/-- The trace of an outcome that returned or aborted. -/
def Res.trace {α : Type} : Res α → Option (List Event)
  | .ret _ tr => some tr
  | .abort tr => some tr
  | .out_of_fuel => none

/-! ## Environments for concrete runs -/

/-- A world in which every pthread call succeeds and the predicate becomes true at
instant 4, that is at its third evaluation by `wait(__lock, __p)` started at instant 0. -/
def env_two_rounds : Env :=
  ⟨fun n => 100 + n, fun n => 5000 + n, fun _ => 0, fun n => decide (4 ≤ n)⟩

/-- A world with skewed clocks: the monotonic clock advances a millisecond (10^6 ticks) per
event while the caller's clock stands still at 5000; every pthread call returns
`ETIMEDOUT` (110) and the predicate is always false. -/
def env_skew : Env := ⟨fun n => 1000000 * n, fun _ => 5000, fun _ => 110, fun _ => false⟩

/-- A world some 1000 s after the start of the monotonic clock, which reads
`10^12 + n` ns at instant `n`; the caller's clock reads `5000 + n`, every pthread call
returns `ETIMEDOUT` (110) and the predicate is always false. -/
def env_uptime : Env :=
  ⟨fun n => 1000000000000 + n, fun n => 5000 + n, fun _ => 110, fun _ => false⟩

/-- A world on 30 October 2026: the caller's `system_clock` reads
`1793380476582078577 + n` ns since 1970, the monotonic clock `10^12 + n` ns; every
pthread call returns 0 (the waiter is woken) and the predicate is always false. -/
def env_wall : Env :=
  ⟨fun n => 1000000000000 + n, fun n => 1793380476582078577 + n, fun _ => 0, fun _ => false⟩

/-- A world in which the monotonic clock reads `5 * 10^9 + n` ns and the caller's clock,
which counts seconds, stands at 0; every pthread call returns `ETIMEDOUT` (110) and the
predicate is always false. -/
def env_five : Env := ⟨fun n => 5000000000 + n, fun _ => 0, fun _ => 110, fun _ => false⟩

/-! ## Arithmetic of durations -/

theorem wrap64_eq_self_iff (x : Int) :
    wrap64 x = x ↔ -9223372036854775808 ≤ x ∧ x < 9223372036854775808 := by
  unfold wrap64
  omega

theorem tdiv_bounds_of_nonneg {a b : Int} (ha : 0 ≤ a) (hb : 0 < b) :
    a.tdiv b * b ≤ a ∧ a < (a.tdiv b + 1) * b := by
  have h1 := Int.tdiv_add_tmod' a b
  have h2 := Int.tmod_nonneg b ha
  have h3 := Int.tmod_lt_of_pos a hb
  constructor <;> nlinarith

theorem tdiv_bounds_of_nonpos {a b : Int} (ha : a ≤ 0) (hb : 0 < b) :
    a ≤ a.tdiv b * b ∧ (a.tdiv b - 1) * b < a := by
  have h := tdiv_bounds_of_nonneg (a := -a) (by omega) hb
  rw [Int.neg_tdiv] at h
  constructor <;> nlinarith [h.1, h.2]

theorem ratio_divide_spec (p q : Period) :
    (ratio_divide p q).num * (p.den * q.num) = (ratio_divide p q).den * (p.num * q.den) := by
  simp only [ratio_divide]
  have ha := Nat.div_mul_cancel (Nat.gcd_dvd_left (p.num * q.den) (p.den * q.num))
  have hb := Nat.div_mul_cancel (Nat.gcd_dvd_right (p.num * q.den) (p.den * q.num))
  generalize p.num * q.den / Nat.gcd (p.num * q.den) (p.den * q.num) = x at *
  generalize p.den * q.num / Nat.gcd (p.num * q.den) (p.den * q.num) = y at *
  generalize Nat.gcd (p.num * q.den) (p.den * q.num) = g at *
  rw [← ha, ← hb]
  ring

theorem duration_cast_period (w : Int → Int) (tp : Period) (d : Dur) :
    (duration_cast w tp d).period = tp := by
  unfold duration_cast
  simp only []
  split_ifs <;> rfl

/-- In exact arithmetic the four cases of `duration_cast` are one formula. -/
theorem duration_cast_count (tp : Period) (d : Dur) :
    (duration_cast id tp d).count
      = (d.count * ((ratio_divide d.period tp).num : Int)).tdiv
          ((ratio_divide d.period tp).den : Int) := by
  unfold duration_cast
  simp only []
  split_ifs with h1 h2 h2 <;> simp [h1, h2]

theorem Period.val_pos (p : Period) : 0 < p.val := by
  unfold Period.val
  have h1 : (0 : ℚ) < p.num := by exact_mod_cast p.num_pos
  have h2 : (0 : ℚ) < p.den := by exact_mod_cast p.den_pos
  positivity

theorem Dur.val_eq (d : Dur) : d.val = (d.count : ℚ) * d.period.val := by
  unfold Dur.val Period.val
  ring

theorem Dur.val_mk (c : Int) (p : Period) : (Dur.mk c p).val = (c : ℚ) * p.val :=
  Dur.val_eq _

/-- The conversion factor of `duration_cast` is the quotient of the two tick lengths. -/
theorem ratio_divide_val (p q : Period) : (ratio_divide p q).val * q.val = p.val := by
  have h := ratio_divide_spec p q
  have h' : ((ratio_divide p q).num : ℚ) * ((p.den : ℚ) * q.num)
      = ((ratio_divide p q).den : ℚ) * ((p.num : ℚ) * q.den) := by exact_mod_cast h
  have h1 : (0 : ℚ) < p.den := by exact_mod_cast p.den_pos
  have h2 : (0 : ℚ) < q.den := by exact_mod_cast q.den_pos
  have h3 : (0 : ℚ) < (ratio_divide p q).den := by exact_mod_cast (ratio_divide p q).den_pos
  unfold Period.val
  field_simp
  linear_combination h'

theorem duration_cast_val (w : Int → Int) (tp : Period) (d : Dur) :
    (duration_cast w tp d).val = ((duration_cast w tp d).count : ℚ) * tp.val := by
  rw [Dur.val_eq, duration_cast_period]

/-- Scaling the exact length of `d` by the denominator of the conversion factor. -/
theorem val_mul_den (tp : Period) (d : Dur) :
    d.val * ((ratio_divide d.period tp).den : ℚ)
      = (d.count : ℚ) * ((ratio_divide d.period tp).num : ℚ) * tp.val := by
  have h := ratio_divide_val d.period tp
  have h3 : (0 : ℚ) < (ratio_divide d.period tp).den := by
    exact_mod_cast (ratio_divide d.period tp).den_pos
  have h4 : (0 : ℚ) < tp.den := by exact_mod_cast tp.den_pos
  rw [Dur.val_eq, ← h]
  unfold Period.val
  field_simp
  ring

/-- Exact truncation rounds a non-negative duration down, by less than one tick. -/
theorem duration_cast_val_of_nonneg (tp : Period) (d : Dur) (h : 0 ≤ d.count) :
    (duration_cast id tp d).val ≤ d.val
      ∧ d.val < (duration_cast id tp d).val + tp.val := by
  have hden : (0 : Int) < ((ratio_divide d.period tp).den : Int) := by
    exact_mod_cast (ratio_divide d.period tp).den_pos
  have hnum : (0 : Int) ≤ d.count * ((ratio_divide d.period tp).num : Int) :=
    Int.mul_nonneg h (Int.ofNat_nonneg _)
  have hb := tdiv_bounds_of_nonneg hnum hden
  rw [← duration_cast_count] at hb
  have hq1 : ((duration_cast id tp d).count : ℚ) * ((ratio_divide d.period tp).den : ℚ)
      ≤ (d.count : ℚ) * ((ratio_divide d.period tp).num : ℚ) := by exact_mod_cast hb.1
  have hq2 : (d.count : ℚ) * ((ratio_divide d.period tp).num : ℚ)
      < (((duration_cast id tp d).count : ℚ) + 1) * ((ratio_divide d.period tp).den : ℚ) := by
    exact_mod_cast hb.2
  have hT := tp.val_pos
  have hD : (0 : ℚ) < (ratio_divide d.period tp).den := by exact_mod_cast hden
  have key := val_mul_den tp d
  rw [duration_cast_val]
  constructor
  · refine le_of_mul_le_mul_right ?_ hD
    rw [key]
    nlinarith
  · refine lt_of_mul_lt_mul_right ?_ hD.le
    rw [key]
    nlinarith

/-- Exact truncation rounds a non-positive duration up, by less than one tick. -/
theorem duration_cast_val_of_nonpos (tp : Period) (d : Dur) (h : d.count ≤ 0) :
    d.val ≤ (duration_cast id tp d).val
      ∧ (duration_cast id tp d).val - tp.val < d.val := by
  have hden : (0 : Int) < ((ratio_divide d.period tp).den : Int) := by
    exact_mod_cast (ratio_divide d.period tp).den_pos
  have hnum : d.count * ((ratio_divide d.period tp).num : Int) ≤ 0 :=
    Int.mul_nonpos_of_nonpos_of_nonneg h (Int.ofNat_nonneg _)
  have hb := tdiv_bounds_of_nonpos hnum hden
  rw [← duration_cast_count] at hb
  have hq1 : (d.count : ℚ) * ((ratio_divide d.period tp).num : ℚ)
      ≤ ((duration_cast id tp d).count : ℚ) * ((ratio_divide d.period tp).den : ℚ) := by
    exact_mod_cast hb.1
  have hq2 : (((duration_cast id tp d).count : ℚ) - 1) * ((ratio_divide d.period tp).den : ℚ)
      < (d.count : ℚ) * ((ratio_divide d.period tp).num : ℚ) := by
    exact_mod_cast hb.2
  have hT := tp.val_pos
  have hD : (0 : ℚ) < (ratio_divide d.period tp).den := by exact_mod_cast hden
  have key := val_mul_den tp d
  rw [duration_cast_val]
  constructor
  · refine le_of_mul_le_mul_right ?_ hD
    rw [key]
    nlinarith
  · refine lt_of_mul_lt_mul_right ?_ hD.le
    rw [key]
    nlinarith

/-- An exact conversion whose factor is an integer keeps the length. -/
theorem duration_cast_val_exact (tp : Period) (d : Dur)
    (h : (ratio_divide d.period tp).den = 1) : (duration_cast id tp d).val = d.val := by
  have key := val_mul_den tp d
  rw [duration_cast_val, duration_cast_count, h]
  rw [h] at key
  simp only [Nat.cast_one, Int.tdiv_one, mul_one] at key ⊢
  rw [key]
  push_cast
  ring

theorem ratio_divide_den_eq_one (p q : Period) (h : p.den * q.num ∣ p.num * q.den) :
    (ratio_divide p q).den = 1 := by
  simp only [ratio_divide]
  rw [Nat.gcd_eq_right h]
  exact Nat.div_self (Nat.mul_pos p.den_pos q.num_pos)

theorem common_period_left (p q : Period) :
    (ratio_divide p (common_period p q)).den = 1 := by
  apply ratio_divide_den_eq_one
  simp only [common_period]
  obtain ⟨k, hk⟩ := Nat.gcd_dvd_left p.num q.num
  obtain ⟨a, ha⟩ := Nat.gcd_dvd_left p.den q.den
  obtain ⟨b, hb⟩ := Nat.gcd_dvd_right p.den q.den
  have hg : 0 < Nat.gcd p.den q.den := Nat.gcd_pos_of_pos_left _ p.den_pos
  have hdiv : p.den / Nat.gcd p.den q.den = a := Nat.div_eq_of_eq_mul_right hg ha
  rw [hdiv]
  refine ⟨k * b, ?_⟩
  conv_lhs => rw [hk, hb]
  conv_rhs => rw [ha]
  ring

theorem common_period_right (p q : Period) :
    (ratio_divide q (common_period p q)).den = 1 := by
  apply ratio_divide_den_eq_one
  simp only [common_period]
  obtain ⟨k, hk⟩ := Nat.gcd_dvd_right p.num q.num
  refine ⟨k * (p.den / Nat.gcd p.den q.den), ?_⟩
  conv_lhs => rw [hk]
  ring

/-- In exact arithmetic the comparison of the library compares the exact lengths. -/
theorem Dur.lt_iff (a b : Dur) : Dur.lt id a b = true ↔ a.val < b.val := by
  have ha := duration_cast_val_exact _ a (common_period_left a.period b.period)
  have hb := duration_cast_val_exact _ b (common_period_right a.period b.period)
  rw [duration_cast_val] at ha hb
  have hT := (common_period a.period b.period).val_pos
  unfold Dur.lt
  rw [decide_eq_true_iff, ← ha, ← hb]
  constructor
  · intro h
    have : ((duration_cast id (common_period a.period b.period) a).count : ℚ)
        < ((duration_cast id (common_period a.period b.period) b).count : ℚ) := by
      exact_mod_cast h
    nlinarith
  · intro h
    have := lt_of_mul_lt_mul_right h hT.le
    exact_mod_cast this

theorem Dur.lt_eq_false_iff (a b : Dur) : Dur.lt id a b = false ↔ b.val ≤ a.val := by
  rw [← not_lt, ← Dur.lt_iff]
  simp

theorem Dur.add_period (w : Int → Int) (a b : Dur) :
    (Dur.add w a b).period = common_period a.period b.period :=
  rfl

theorem Dur.sub_period (w : Int → Int) (a b : Dur) :
    (Dur.sub w a b).period = common_period a.period b.period :=
  rfl

theorem Dur.add_val (a b : Dur) : (Dur.add id a b).val = a.val + b.val := by
  have ha := duration_cast_val_exact _ a (common_period_left a.period b.period)
  have hb := duration_cast_val_exact _ b (common_period_right a.period b.period)
  rw [duration_cast_val] at ha hb
  rw [Dur.val_eq, Dur.add_period, ← ha, ← hb]
  simp only [Dur.add, id]
  push_cast
  ring

theorem Dur.sub_val (a b : Dur) : (Dur.sub id a b).val = a.val - b.val := by
  have ha := duration_cast_val_exact _ a (common_period_left a.period b.period)
  have hb := duration_cast_val_exact _ b (common_period_right a.period b.period)
  rw [duration_cast_val] at ha hb
  rw [Dur.val_eq, Dur.sub_period, ← ha, ← hb]
  simp only [Dur.sub, id]
  push_cast
  ring

theorem common_period_self (p : Period) : common_period p p = p := by
  obtain ⟨n, d, hn, hd⟩ := p
  simp only [common_period, Nat.gcd_self, Period.mk.injEq, true_and]
  rw [Nat.div_self hd, Nat.one_mul]

theorem ratio_divide_self (p : Period) :
    (ratio_divide p p).num = 1 ∧ (ratio_divide p p).den = 1 := by
  have h : 0 < p.num * p.den := Nat.mul_pos p.num_pos p.den_pos
  simp only [ratio_divide]
  rw [Nat.mul_comm p.den p.num, Nat.gcd_self]
  exact ⟨Nat.div_self h, Nat.div_self h⟩

/-- A conversion to the same type multiplies nothing, in any arithmetic. -/
theorem duration_cast_same (w : Int → Int) (c : Int) (p : Period) :
    duration_cast w p ⟨c, p⟩ = ⟨c, p⟩ := by
  unfold duration_cast
  simp [(ratio_divide_self p).1, (ratio_divide_self p).2]

theorem Dur.add_same (w : Int → Int) (a b : Int) (p : Period) :
    Dur.add w ⟨a, p⟩ ⟨b, p⟩ = ⟨w (a + b), p⟩ := by
  unfold Dur.add
  simp only [common_period_self, duration_cast_same]

/-- Two durations of one type are compared by their counts, in any arithmetic. -/
theorem Dur.lt_same (w : Int → Int) (a b : Int) (p : Period) :
    Dur.lt w ⟨a, p⟩ ⟨b, p⟩ = decide (a < b) := by
  unfold Dur.lt
  simp only [common_period_self, duration_cast_same]

theorem Dur.val_le_val_iff (a b : Int) (p : Period) :
    (Dur.mk a p).val ≤ (Dur.mk b p).val ↔ a ≤ b := by
  have hT := p.val_pos
  rw [Dur.val_mk a p, Dur.val_mk b p]
  constructor
  · intro h
    have := le_of_mul_le_mul_right h hT
    exact_mod_cast this
  · intro h
    have : (a : ℚ) ≤ (b : ℚ) := by exact_mod_cast h
    nlinarith

/-! ## Without overflow the machine computes the exact results -/

theorem duration_cast_of_fits (w : Int → Int) (tp : Period) (d : Dur)
    (h : duration_cast_fits w tp d = true) : duration_cast w tp d = duration_cast id tp d := by
  unfold duration_cast_fits at h
  rw [decide_eq_true_iff] at h
  unfold duration_cast
  simp only [id]
  rw [h]

theorem Dur.lt_of_fits (w : Int → Int) (a b : Dur) (h : Dur.lt_fits w a b = true) :
    Dur.lt w a b = Dur.lt id a b := by
  unfold Dur.lt_fits at h
  rw [Bool.and_eq_true] at h
  unfold Dur.lt
  rw [duration_cast_of_fits w _ a h.1, duration_cast_of_fits w _ b h.2]

theorem Dur.add_of_fits (w : Int → Int) (a b : Dur) (h : Dur.add_fits w a b = true) :
    Dur.add w a b = Dur.add id a b := by
  unfold Dur.add_fits Dur.lt_fits at h
  simp only [Bool.and_eq_true, decide_eq_true_eq] at h
  have h2 := h.2
  unfold Dur.add at h2 ⊢
  simp only [id] at h2 ⊢
  rw [duration_cast_of_fits w _ a h.1.1, duration_cast_of_fits w _ b h.1.2, h2]

theorem Dur.sub_of_fits (w : Int → Int) (a b : Dur) (h : Dur.sub_fits w a b = true) :
    Dur.sub w a b = Dur.sub id a b := by
  unfold Dur.sub_fits Dur.lt_fits at h
  simp only [Bool.and_eq_true, decide_eq_true_eq] at h
  have h2 := h.2
  unfold Dur.sub at h2 ⊢
  simp only [id] at h2 ⊢
  rw [duration_cast_of_fits w _ a h.1.1, duration_cast_of_fits w _ b h.1.2, h2]

theorem ceil_of_fits (w : Int → Int) (tp : Period) (d : Dur) (h : ceil_fits w tp d = true) :
    ceil w tp d = ceil id tp d := by
  unfold ceil_fits at h
  simp only [Bool.and_eq_true] at h
  unfold ceil __ceil_impl
  rw [duration_cast_of_fits w tp d h.1.1, Dur.lt_of_fits w _ d h.1.2,
    Dur.add_of_fits w _ _ h.2]

/-- In exact arithmetic nothing overflows. -/
theorem fits_exact (tp : Period) (a b : Dur) :
    duration_cast_fits id tp a = true ∧ Dur.lt_fits id a b = true
      ∧ Dur.add_fits id a b = true ∧ Dur.sub_fits id a b = true
      ∧ ceil_fits id tp a = true := by
  simp [duration_cast_fits, Dur.lt_fits, Dur.add_fits, Dur.sub_fits, ceil_fits]

/-- Without overflow the comparison of the library compares the exact lengths. -/
theorem Dur.lt_iff_of_fits (w : Int → Int) (a b : Dur) (h : Dur.lt_fits w a b = true) :
    (Dur.lt w a b = true ↔ a.val < b.val) ∧ (Dur.lt w a b = false ↔ b.val ≤ a.val) := by
  rw [Dur.lt_of_fits w a b h]
  exact ⟨Dur.lt_iff a b, Dur.lt_eq_false_iff a b⟩

/-! ## cyan::ceil in exact arithmetic -/

/-- The result of `cyan::ceil` in closed form: one tick is added to the truncated count
exactly when the truncated duration is shorter than the argument. -/
theorem ceil_eq (tp : Period) (d : Dur) :
    ceil id tp d
      = if Dur.lt id (duration_cast id tp d) d then ⟨(duration_cast id tp d).count + 1, tp⟩
        else duration_cast id tp d := by
  unfold ceil __ceil_impl
  split_ifs with h
  · have hp := duration_cast_period id tp d
    generalize duration_cast id tp d = t at hp
    obtain ⟨c, p⟩ := t
    simp only at hp
    subst hp
    exact Dur.add_same id c 1 p
  · rfl

theorem ceil_period (w : Int → Int) (tp : Period) (d : Dur) : (ceil w tp d).period = tp := by
  unfold ceil __ceil_impl
  split_ifs
  · rw [Dur.add_period]
    simp only [common_period_self]
    exact duration_cast_period w tp d
  · exact duration_cast_period w tp d

/-- The exact length of the exact `ceil<ToDur>(d)` lies in `[d, d + one tick of ToDur)`. -/
theorem ceil_val_bounds (tp : Period) (d : Dur) :
    d.val ≤ (ceil id tp d).val ∧ (ceil id tp d).val < d.val + tp.val := by
  have hT := tp.val_pos
  rw [ceil_eq]
  split_ifs with h
  · rw [Dur.lt_iff, duration_cast_val] at h
    rw [Dur.val_mk ((duration_cast id tp d).count + 1) tp]
    push_cast
    rcases le_total 0 d.count with hc | hc
    · have hb := duration_cast_val_of_nonneg tp d hc
      rw [duration_cast_val] at hb
      constructor <;> linarith [hb.1, hb.2]
    · have hb := duration_cast_val_of_nonpos tp d hc
      rw [duration_cast_val] at hb
      constructor <;> linarith [hb.1, hb.2]
  · rw [Bool.not_eq_true, Dur.lt_eq_false_iff] at h
    constructor
    · exact h
    · rcases le_total 0 d.count with hc | hc
      · have hb := duration_cast_val_of_nonneg tp d hc
        linarith [hb.1, hb.2]
      · have hb := duration_cast_val_of_nonpos tp d hc
        linarith [hb.1, hb.2]

/-! ## The timed waits -/

/-- The result of `__wait_until_impl` when the return code of the timed wait passes the
assertion. -/
theorem wait_until_impl_of_accepted (P : Platform) (env : Env) (tr : List Event) (atime : Dur)
    (h : env.os tr.length = 0 ∨ env.os tr.length = P.ETIMEDOUT) :
    __wait_until_impl P env tr atime
      = .ret (if Dur.lt P.wrap ⟨env.steady (tr.length + 1), P.steady_period⟩ atime
            then cv_status.no_timeout else cv_status.timeout)
          (.steady_now (env.steady (tr.length + 1))
            :: .cond_timedwait (__ts P.wrap atime).1 (__ts P.wrap atime).2 (env.os tr.length)
            :: tr) := by
  unfold __wait_until_impl
  simp only [List.length_cons]
  rw [if_pos h]

/-- The result of `__wait_until_impl` when the return code of the timed wait fails the
assertion. -/
theorem wait_until_impl_of_rejected (P : Platform) (env : Env) (tr : List Event) (atime : Dur)
    (h : ¬ (env.os tr.length = 0 ∨ env.os tr.length = P.ETIMEDOUT)) :
    __wait_until_impl P env tr atime
      = .abort (.cond_timedwait (__ts P.wrap atime).1 (__ts P.wrap atime).2 (env.os tr.length)
          :: tr) := by
  unfold __wait_until_impl
  simp only [List.length_cons]
  rw [if_neg h]

/-- The translated deadline in exact arithmetic, in closed form. -/
theorem s_atime_eq (ps : Period) (c_entry atime : Dur) (s : Int) :
    __s_atime id ps c_entry ⟨s, ps⟩ atime
      = ⟨s + (ceil id ps (Dur.sub id atime c_entry)).count, ps⟩ := by
  show Dur.add id ⟨s, ps⟩ (ceil id ps (Dur.sub id atime c_entry)) = _
  have hp := ceil_period id ps (Dur.sub id atime c_entry)
  generalize ceil id ps (Dur.sub id atime c_entry) = r at hp
  obtain ⟨c, p⟩ := r
  simp only at hp
  subst hp
  exact Dur.add_same id s c _

/-- Without overflow the translated deadline is the exact one. -/
theorem s_atime_of_fits (w : Int → Int) (ps : Period) (c_entry s_entry atime : Dur)
    (hsub : Dur.sub_fits w atime c_entry = true)
    (hceil : ceil_fits w ps (Dur.sub id atime c_entry) = true)
    (hadd : Dur.add_fits w s_entry (ceil id ps (Dur.sub id atime c_entry)) = true) :
    __s_atime w ps c_entry s_entry atime = __s_atime id ps c_entry s_entry atime := by
  unfold __s_atime
  simp only
  rw [Dur.sub_of_fits w atime c_entry hsub, ceil_of_fits w ps _ hceil,
    Dur.add_of_fits w s_entry _ hadd]

theorem s_atime_period (w : Int → Int) (ps : Period) (c_entry atime : Dur) (s : Int) :
    (__s_atime w ps c_entry ⟨s, ps⟩ atime).period = ps := by
  show (Dur.add w ⟨s, ps⟩ (ceil w ps (Dur.sub w atime c_entry))).period = ps
  rw [Dur.add_period, ceil_period]
  exact common_period_self ps

/-- The result of the overload of `wait_until` for any clock when the return code of the
timed wait passes the assertion. -/
theorem wait_until_generic_of_accepted (P : Platform) (env : Env) (pc : Period)
    (tr : List Event) (atime : Dur)
    (h : env.os (tr.length + 2) = 0 ∨ env.os (tr.length + 2) = P.ETIMEDOUT) :
    wait_until_generic P env pc tr atime
      = if Dur.lt P.wrap ⟨env.steady (tr.length + 3), P.steady_period⟩
            (__s_atime P.wrap P.steady_period ⟨env.caller tr.length, pc⟩
              ⟨env.steady (tr.length + 1), P.steady_period⟩ atime)
        then .ret .no_timeout
          (.steady_now (env.steady (tr.length + 3))
            :: .cond_timedwait
                (__ts P.wrap (__s_atime P.wrap P.steady_period ⟨env.caller tr.length, pc⟩
                  ⟨env.steady (tr.length + 1), P.steady_period⟩ atime)).1
                (__ts P.wrap (__s_atime P.wrap P.steady_period ⟨env.caller tr.length, pc⟩
                  ⟨env.steady (tr.length + 1), P.steady_period⟩ atime)).2
                (env.os (tr.length + 2))
            :: .steady_now (env.steady (tr.length + 1))
            :: .caller_now (env.caller tr.length) :: tr)
        else .ret
          (if Dur.lt P.wrap ⟨env.caller (tr.length + 4), pc⟩ atime
            then cv_status.no_timeout else cv_status.timeout)
          (.caller_now (env.caller (tr.length + 4))
            :: .steady_now (env.steady (tr.length + 3))
            :: .cond_timedwait
                (__ts P.wrap (__s_atime P.wrap P.steady_period ⟨env.caller tr.length, pc⟩
                  ⟨env.steady (tr.length + 1), P.steady_period⟩ atime)).1
                (__ts P.wrap (__s_atime P.wrap P.steady_period ⟨env.caller tr.length, pc⟩
                  ⟨env.steady (tr.length + 1), P.steady_period⟩ atime)).2
                (env.os (tr.length + 2))
            :: .steady_now (env.steady (tr.length + 1))
            :: .caller_now (env.caller tr.length) :: tr) := by
  unfold wait_until_generic
  simp only [List.length_cons]
  rw [wait_until_impl_of_accepted P env _ _ (by simpa using h)]
  simp only [List.length_cons]
  by_cases h1 : Dur.lt P.wrap ⟨env.steady (tr.length + 1 + 1 + 1), P.steady_period⟩
      (__s_atime P.wrap P.steady_period ⟨env.caller tr.length, pc⟩
        ⟨env.steady (tr.length + 1), P.steady_period⟩ atime) = true
  · rw [if_pos h1, if_pos h1]
  · rw [if_neg h1, if_neg h1]
    by_cases h2 : Dur.lt P.wrap ⟨env.caller (tr.length + 1 + 1 + 1 + 1), pc⟩ atime = true
    · simp only [List.length_cons]
      rw [if_pos h2, if_pos h2]
    · simp only [List.length_cons]
      rw [if_neg h2, if_neg h2]

/-- The result of the overload of `wait_until` for any clock when the return code of the
timed wait fails the assertion. -/
theorem wait_until_generic_of_rejected (P : Platform) (env : Env) (pc : Period)
    (tr : List Event) (atime : Dur)
    (h : ¬ (env.os (tr.length + 2) = 0 ∨ env.os (tr.length + 2) = P.ETIMEDOUT)) :
    wait_until_generic P env pc tr atime
      = .abort
          (.cond_timedwait
                (__ts P.wrap (__s_atime P.wrap P.steady_period ⟨env.caller tr.length, pc⟩
                  ⟨env.steady (tr.length + 1), P.steady_period⟩ atime)).1
                (__ts P.wrap (__s_atime P.wrap P.steady_period ⟨env.caller tr.length, pc⟩
                  ⟨env.steady (tr.length + 1), P.steady_period⟩ atime)).2
                (env.os (tr.length + 2))
            :: .steady_now (env.steady (tr.length + 1))
            :: .caller_now (env.caller tr.length) :: tr) := by
  unfold wait_until_generic
  simp only [List.length_cons]
  rw [wait_until_impl_of_rejected P env _ _ (by simpa using h)]
  simp only [List.length_cons]

/-! ## The predicate loops -/

theorem wait_pred_of_true (env : Env) (fuel : Nat) (tr : List Event)
    (h : env.pred tr.length = true) :
    wait_pred env (fuel + 1) tr = .ret () (.predicate true :: tr) := by
  simp [wait_pred, h]

theorem wait_pred_of_false (env : Env) (fuel : Nat) (tr : List Event)
    (h : env.pred tr.length = false) (hos : env.os (tr.length + 1) = 0) :
    wait_pred env (fuel + 1) tr
      = wait_pred env fuel (.cond_wait 0 :: .predicate false :: tr) := by
  simp [wait_pred, wait, h, hos]

theorem wait_pred_of_abort (env : Env) (fuel : Nat) (tr : List Event)
    (h : env.pred tr.length = false) (hos : env.os (tr.length + 1) ≠ 0) :
    wait_pred env (fuel + 1) tr
      = .abort (.cond_wait (env.os (tr.length + 1)) :: .predicate false :: tr) := by
  simp [wait_pred, wait, h, hos]

theorem wait_rounds_length (n : Nat) (tr : List Event) :
    (wait_rounds n tr).length = tr.length + 2 * n := by
  induction n generalizing tr with
  | zero => rfl
  | succ n ih =>
    rw [wait_rounds, ih]
    simp only [List.length_cons]
    omega

theorem wait_rounds_counts (n : Nat) (tr : List Event) :
    cond_waits (wait_rounds n tr) = cond_waits tr + n
    ∧ false_evaluations (wait_rounds n tr) = false_evaluations tr + n := by
  induction n generalizing tr with
  | zero => exact ⟨rfl, rfl⟩
  | succ n ih =>
    rw [wait_rounds, (ih _).1, (ih _).2]
    simp only [cond_waits, false_evaluations]
    omega

/-- A returning run of `wait(__lock, __p)` made some number of rounds and then evaluated
the predicate to true. -/
theorem wait_pred_ret (env : Env) (fuel : Nat) (tr tr1 : List Event)
    (h : wait_pred env fuel tr = .ret () tr1) :
    ∃ n, n < fuel ∧ tr1 = .predicate true :: wait_rounds n tr
      ∧ env.pred (tr.length + 2 * n) = true
      ∧ ∀ i, i < n → env.pred (tr.length + 2 * i) = false
          ∧ env.os (tr.length + 2 * i + 1) = 0 := by
  induction fuel generalizing tr with
  | zero => simp [wait_pred] at h
  | succ fuel ih =>
    by_cases hp : env.pred tr.length = true
    · rw [wait_pred_of_true env fuel tr hp] at h
      simp only [Res.ret.injEq, true_and] at h
      exact ⟨0, by omega, h.symm, by simpa using hp, by intro i hi; omega⟩
    · have hp' : env.pred tr.length = false := by simpa using hp
      by_cases hos : env.os (tr.length + 1) = 0
      · rw [wait_pred_of_false env fuel tr hp' hos] at h
        obtain ⟨n, hn, htr, hpn, hall⟩ := ih _ h
        simp only [List.length_cons] at hpn hall
        refine ⟨n + 1, by omega, htr, ?_, ?_⟩
        · rw [← hpn]; congr 1; omega
        · intro i hi
          cases i with
          | zero => exact ⟨by simpa using hp', by simpa using hos⟩
          | succ j =>
            have := hall j (by omega)
            constructor
            · rw [← this.1]; congr 1; omega
            · rw [← this.2]; congr 1; omega
      · rw [wait_pred_of_abort env fuel tr hp' hos] at h
        simp at h

/-- With enough fuel, `wait(__lock, __p)` returns as soon as the predicate yields true,
provided the waits before succeed. -/
theorem wait_pred_returns (env : Env) (n : Nat) (tr : List Event) (fuel : Nat)
    (hfuel : n < fuel) (hpn : env.pred (tr.length + 2 * n) = true)
    (hall : ∀ i, i < n → env.pred (tr.length + 2 * i) = false
      ∧ env.os (tr.length + 2 * i + 1) = 0) :
    wait_pred env fuel tr = .ret () (.predicate true :: wait_rounds n tr) := by
  induction n generalizing tr fuel with
  | zero =>
    obtain ⟨f, rfl⟩ : ∃ f, fuel = f + 1 := ⟨fuel - 1, by omega⟩
    exact wait_pred_of_true env f tr (by simpa using hpn)
  | succ n ih =>
    obtain ⟨f, rfl⟩ : ∃ f, fuel = f + 1 := ⟨fuel - 1, by omega⟩
    have h0 := hall 0 (by omega)
    rw [wait_pred_of_false env f tr (by simpa using h0.1) (by simpa using h0.2)]
    rw [wait_rounds]
    apply ih
    · omega
    · simp only [List.length_cons]
      rw [← hpn]; congr 1; omega
    · intro i hi
      have := hall (i + 1) (by omega)
      simp only [List.length_cons]
      constructor
      · rw [← this.1]; congr 1; omega
      · rw [← this.2]; congr 1; omega

theorem wait_until_pred_of_true (P : Platform) (env : Env) (c : Clock) (atime : Dur)
    (fuel : Nat) (tr : List Event) (h : env.pred tr.length = true) :
    wait_until_pred P env c atime (fuel + 1) tr = .ret true (.predicate true :: tr) := by
  simp [wait_until_pred, h]

theorem wait_until_pred_of_timeout (P : Platform) (env : Env) (c : Clock) (atime : Dur)
    (fuel : Nat) (tr tr1 : List Event) (h : env.pred tr.length = false)
    (hw : wait_until P env c (.predicate false :: tr) atime = .ret .timeout tr1) :
    wait_until_pred P env c atime (fuel + 1) tr
      = .ret (env.pred tr1.length) (.predicate (env.pred tr1.length) :: tr1) := by
  simp [wait_until_pred, h, hw]

theorem wait_until_pred_of_no_timeout (P : Platform) (env : Env) (c : Clock) (atime : Dur)
    (fuel : Nat) (tr tr1 : List Event) (h : env.pred tr.length = false)
    (hw : wait_until P env c (.predicate false :: tr) atime = .ret .no_timeout tr1) :
    wait_until_pred P env c atime (fuel + 1) tr = wait_until_pred P env c atime fuel tr1 := by
  simp [wait_until_pred, h, hw]

theorem wait_until_pred_of_abort (P : Platform) (env : Env) (c : Clock) (atime : Dur)
    (fuel : Nat) (tr tr1 : List Event) (h : env.pred tr.length = false)
    (hw : wait_until P env c (.predicate false :: tr) atime = .abort tr1) :
    wait_until_pred P env c atime (fuel + 1) tr = .abort tr1 := by
  simp [wait_until_pred, h, hw]

/-- Every OS timed wait that the predicate form of `wait_until` performs for a time point
of `steady_clock` is given the deadline `__atime` of the call. -/
theorem wait_until_pred_steady_trace (P : Platform) (env : Env) (atime : Dur)
    (fuel : Nat) (tr tr1 : List Event)
    (h : (wait_until_pred P env .steady atime fuel tr).trace = some tr1) :
    ∃ new, tr1 = new ++ tr
      ∧ ∀ s n r, Event.cond_timedwait s n r ∈ new → (s, n) = __ts P.wrap atime := by
  induction fuel generalizing tr with
  | zero => simp [wait_until_pred, Res.trace] at h
  | succ fuel ih =>
    by_cases hp : env.pred tr.length = true
    · rw [wait_until_pred_of_true P env .steady atime fuel tr hp] at h
      simp only [Res.trace, Option.some.injEq] at h
      exact ⟨[.predicate true], by rw [← h]; rfl, by simp⟩
    · have hp' : env.pred tr.length = false := by simpa using hp
      have hlen : (Event.predicate false :: tr).length = tr.length + 1 := rfl
      by_cases hacc : env.os (tr.length + 1) = 0 ∨ env.os (tr.length + 1) = P.ETIMEDOUT
      · have hw := wait_until_impl_of_accepted P env (.predicate false :: tr) atime
          (by rw [hlen]; exact hacc)
        by_cases hlt : Dur.lt P.wrap ⟨env.steady ((Event.predicate false :: tr).length + 1),
            P.steady_period⟩ atime = true
        · rw [if_pos hlt] at hw
          rw [wait_until_pred_of_no_timeout P env .steady atime fuel tr _ hp' hw] at h
          obtain ⟨new, hnew, hall⟩ := ih _ h
          refine ⟨new ++ [.steady_now (env.steady ((Event.predicate false :: tr).length + 1)),
            .cond_timedwait (__ts P.wrap atime).1 (__ts P.wrap atime).2
              (env.os (Event.predicate false :: tr).length), .predicate false], ?_, ?_⟩
          · rw [hnew]; simp
          · intro s n r hmem
            simp only [List.mem_append, List.mem_cons, Event.cond_timedwait.injEq,
              List.mem_singleton, reduceCtorEq, false_or, or_false, List.not_mem_nil] at hmem
            rcases hmem with hmem | hmem
            · exact hall s n r hmem
            · rw [hmem.1, hmem.2.1]
        · rw [if_neg hlt] at hw
          rw [wait_until_pred_of_timeout P env .steady atime fuel tr _ hp' hw] at h
          simp only [Res.trace, Option.some.injEq] at h
          refine ⟨[.predicate (env.pred (tr.length + 1 + 1 + 1)),
            .steady_now (env.steady ((Event.predicate false :: tr).length + 1)),
            .cond_timedwait (__ts P.wrap atime).1 (__ts P.wrap atime).2
              (env.os (Event.predicate false :: tr).length), .predicate false], ?_, ?_⟩
          · rw [← h]; simp
          · intro s n r hmem
            simp only [List.mem_cons, Event.cond_timedwait.injEq,
              List.mem_singleton, reduceCtorEq, false_or, or_false, List.not_mem_nil] at hmem
            rw [hmem.1, hmem.2.1]
      · have hw := wait_until_impl_of_rejected P env (.predicate false :: tr) atime
          (by rw [hlen]; exact hacc)
        rw [wait_until_pred_of_abort P env .steady atime fuel tr _ hp' hw] at h
        simp only [Res.trace, Option.some.injEq] at h
        refine ⟨[.cond_timedwait (__ts P.wrap atime).1 (__ts P.wrap atime).2
              (env.os (Event.predicate false :: tr).length), .predicate false], ?_, ?_⟩
        · rw [← h]; simp
        · intro s n r hmem
          simp only [List.mem_cons, Event.cond_timedwait.injEq,
            List.mem_singleton, reduceCtorEq, false_or, or_false, List.not_mem_nil] at hmem
          rw [hmem.1, hmem.2.1]

/-- Without overflow the deadline that `wait_for` builds is the sample plus the exact
rounded-up duration. -/
theorem wait_for_deadline_eq (w : Int → Int) (ps : Period) (t0 : Int) (rtime : Dur)
    (hceil : ceil_fits w ps rtime = true)
    (hadd : Dur.add_fits w ⟨t0, ps⟩ (ceil id ps rtime) = true) :
    Dur.add w ⟨t0, ps⟩ (ceil w ps rtime) = ⟨t0 + (ceil id ps rtime).count, ps⟩ := by
  rw [ceil_of_fits w ps rtime hceil, Dur.add_of_fits w _ _ hadd]
  have hp := ceil_period id ps rtime
  generalize ceil id ps rtime = r at hp
  obtain ⟨c, p⟩ := r
  simp only at hp
  subst hp
  exact Dur.add_same id t0 c _

/-- For a deadline counted in nanoseconds, `__ts` is the quotient and the remainder of the
count by 10^9, both truncating toward zero, when the product and the difference that it
computes do not overflow. -/
theorem ts_nanoseconds (w : Int → Int) (c : Int)
    (h1 : w (c.tdiv 1000000000 * 1000000000) = c.tdiv 1000000000 * 1000000000)
    (h2 : w (c - c.tdiv 1000000000 * 1000000000) = c - c.tdiv 1000000000 * 1000000000) :
    __ts w ⟨c, nanoseconds⟩ = (c.tdiv 1000000000, c.tmod 1000000000) := by
  have e1 : (ratio_divide nanoseconds seconds).num = 1 := by decide
  have e2 : (ratio_divide nanoseconds seconds).den = 1000000000 := by decide
  have e3 : common_period nanoseconds seconds = nanoseconds := by
    simp [common_period, nanoseconds, seconds]
  have e4 : (ratio_divide seconds nanoseconds).num = 1000000000 := by decide
  have e5 : (ratio_divide seconds nanoseconds).den = 1 := by decide
  have hs : duration_cast w seconds ⟨c, nanoseconds⟩ = ⟨c.tdiv 1000000000, seconds⟩ := by
    unfold duration_cast
    simp [e1, e2]
  have hn : ∀ k : Int, duration_cast w nanoseconds ⟨k, seconds⟩
      = ⟨w (k * 1000000000), nanoseconds⟩ := by
    intro k
    unfold duration_cast
    simp [e4, e5]
  unfold __ts time_point_cast
  simp only [hs, Dur.sub, e3, duration_cast_same, hn, h1, h2]
  have := Int.tdiv_add_tmod' c 1000000000
  simp only [Prod.mk.injEq, true_and]
  omega

/-- For a deadline counted in nanoseconds that a 64-bit count holds, the pair of `__ts`
always sums to the deadline; its nanoseconds are in `[0, 10^9)` when the deadline is not
before the epoch, and negative when the deadline is before the epoch and not a whole
number of seconds. -/
theorem ts_nanoseconds_range (c : Int) (hc : wrap64 c = c) :
    (__ts wrap64 ⟨c, nanoseconds⟩).1 * 1000000000 + (__ts wrap64 ⟨c, nanoseconds⟩).2 = c
    ∧ (0 ≤ c → 0 ≤ (__ts wrap64 ⟨c, nanoseconds⟩).2
        ∧ (__ts wrap64 ⟨c, nanoseconds⟩).2 < 1000000000)
    ∧ (c < 0 → c.tmod 1000000000 ≠ 0 → (__ts wrap64 ⟨c, nanoseconds⟩).2 < 0) := by
  rw [wrap64_eq_self_iff] at hc
  have hd := Int.tdiv_add_tmod' c 1000000000
  have hlt : c.tmod 1000000000 < 1000000000 := Int.tmod_lt_of_pos c (by decide)
  have hpos : 0 ≤ c → 0 ≤ c.tmod 1000000000 := fun h => Int.tmod_nonneg _ h
  have hneg : c ≤ 0 → c.tmod 1000000000 ≤ 0 := by
    intro h
    have h' := Int.tmod_nonneg (1000000000 : Int) (a := -c) (by omega)
    rw [Int.tmod_def, Int.neg_tdiv] at h'
    have := Int.tmod_def c 1000000000
    omega
  have hgt : -1000000000 < c.tmod 1000000000 := by
    have h' := Int.tmod_lt_of_pos (-c) (b := 1000000000) (by decide)
    rw [Int.tmod_def, Int.neg_tdiv] at h'
    have := Int.tmod_def c 1000000000
    omega
  have h1 : wrap64 (c.tdiv 1000000000 * 1000000000) = c.tdiv 1000000000 * 1000000000 := by
    rw [wrap64_eq_self_iff]
    rcases le_total 0 c with h | h
    · have := hpos h; omega
    · have := hneg h; omega
  have h2 : wrap64 (c - c.tdiv 1000000000 * 1000000000)
      = c - c.tdiv 1000000000 * 1000000000 := by
    rw [wrap64_eq_self_iff]
    omega
  rw [ts_nanoseconds wrap64 c h1 h2]
  refine ⟨hd, ?_, ?_⟩
  · intro h
    exact ⟨hpos h, hlt⟩
  · intro h hne
    have := hneg h.le
    simp only
    omega

/-! ## Claims -/

/-- C2. In exact integer arithmetic, for every duration `d` with an integer tick count of
any sign and every target period, `cyan::ceil<ToDur>(d)` is a duration of type `ToDur` that
never rounds down: it is not less than `d`, both for the comparison of the library and in
exact length; it is the smallest duration of `ToDur` that is not less than `d`; it exceeds
`d` by less than one tick of `ToDur`; and it equals `d` when `d` is representable in
`ToDur`. -/
theorem ceil_least_not_below (tp : Period) (d : Dur) :
    (ceil id tp d).period = tp
    ∧ Dur.lt id (ceil id tp d) d = false
    ∧ d.val ≤ (ceil id tp d).val
    ∧ (∀ k : Int, Dur.lt id ⟨k, tp⟩ d = false → (ceil id tp d).count ≤ k)
    ∧ (ceil id tp d).val - d.val < tp.val
    ∧ (∀ k : Int, (Dur.mk k tp).val = d.val → ceil id tp d = ⟨k, tp⟩) := by
  have hT := tp.val_pos
  have hb := ceil_val_bounds tp d
  have hp := ceil_period id tp d
  have hv : (ceil id tp d).val = ((ceil id tp d).count : ℚ) * tp.val := by rw [Dur.val_eq, hp]
  have hmin : ∀ k : Int, d.val ≤ (Dur.mk k tp).val → (ceil id tp d).count ≤ k := by
    intro k hk
    rw [Dur.val_mk k tp] at hk
    have h1 : ((ceil id tp d).count : ℚ) * tp.val < ((k : ℚ) + 1) * tp.val := by
      rw [← hv]; linarith [hb.2]
    have h2 := lt_of_mul_lt_mul_right h1 hT.le
    have h3 : (ceil id tp d).count < k + 1 := by exact_mod_cast h2
    omega
  refine ⟨hp, (Dur.lt_eq_false_iff _ _).2 hb.1, hb.1, ?_, by linarith [hb.2], ?_⟩
  · intro k hk
    exact hmin k ((Dur.lt_eq_false_iff _ _).1 hk)
  · intro k hk
    have h1 := hmin k hk.ge
    have h2 : (k : ℚ) * tp.val ≤ ((ceil id tp d).count : ℚ) * tp.val := by
      rw [← hv]
      rw [Dur.val_mk k tp] at hk
      rw [hk]
      exact hb.1
    have h3 := le_of_mul_le_mul_right h2 hT
    have h4 : k ≤ (ceil id tp d).count := by exact_mod_cast h3
    have h5 : (ceil id tp d).count = k := by omega
    generalize ceil id tp d = r at hp h5
    obtain ⟨c, p⟩ := r
    simp only at hp h5
    rw [hp, h5]

/-- C9. With the process abort as an error result: `__wait_until_impl` aborts if and only
if the return code of the OS timed wait is neither 0 nor `ETIMEDOUT`, and returns a status
if and only if it is one of the two; `wait(lock)`, `notify_one` and `notify_all` abort if
and only if their OS call returns a non-zero code, and return if and only if it returns
0. -/
theorem abort_iff_os_failure (P : Platform) (env : Env) (tr : List Event) (atime : Dur) :
    ((∃ tr1, __wait_until_impl P env tr atime = .abort tr1)
        ↔ ¬ (env.os tr.length = 0 ∨ env.os tr.length = P.ETIMEDOUT))
    ∧ ((∃ st tr1, __wait_until_impl P env tr atime = .ret st tr1)
        ↔ (env.os tr.length = 0 ∨ env.os tr.length = P.ETIMEDOUT))
    ∧ __wait_until_impl P env tr atime ≠ .out_of_fuel
    ∧ ((∃ tr1, wait env tr = .abort tr1) ↔ env.os tr.length ≠ 0)
    ∧ ((∃ tr1, wait env tr = .ret () tr1) ↔ env.os tr.length = 0)
    ∧ ((∃ tr1, notify_one env tr = .abort tr1) ↔ env.os tr.length ≠ 0)
    ∧ ((∃ tr1, notify_one env tr = .ret () tr1) ↔ env.os tr.length = 0)
    ∧ ((∃ tr1, notify_all env tr = .abort tr1) ↔ env.os tr.length ≠ 0)
    ∧ ((∃ tr1, notify_all env tr = .ret () tr1) ↔ env.os tr.length = 0) := by
  refine ⟨?_, ?_, ?_, ?_, ?_, ?_, ?_, ?_, ?_⟩
  · by_cases h : env.os tr.length = 0 ∨ env.os tr.length = P.ETIMEDOUT
    · simp [wait_until_impl_of_accepted P env tr atime h, h]
    · simp [wait_until_impl_of_rejected P env tr atime h, h]
  · by_cases h : env.os tr.length = 0 ∨ env.os tr.length = P.ETIMEDOUT
    · simp [wait_until_impl_of_accepted P env tr atime h, h]
    · simp [wait_until_impl_of_rejected P env tr atime h, h]
  · by_cases h : env.os tr.length = 0 ∨ env.os tr.length = P.ETIMEDOUT
    · simp [wait_until_impl_of_accepted P env tr atime h]
    · simp [wait_until_impl_of_rejected P env tr atime h]
  all_goals
    by_cases h : env.os tr.length = 0 <;> simp [wait, notify_one, notify_all, h]

/-- C8, amended. In the overload of `wait_until` for any clock: when the subtraction
`deadline - now_caller`, its rounded-up conversion to the resolution of the monotonic clock
and the addition to `now_monotonic` do not overflow the 64-bit counts, the deadline handed
to the wait of the monotonic domain is `now_monotonic + ceil(deadline - now_caller)` for
the two samples taken at entry, with the exact `ceil`, and it is the deadline of the OS
timed wait the call performs; the translated interval
`translated_deadline - now_monotonic` is never shorter than the caller's interval
`deadline - now_caller` and exceeds it by strictly less than one tick of the monotonic
clock. -/
theorem translated_deadline_interval (P : Platform) (env : Env) (pc : Period)
    (tr : List Event) (atime : Dur)
    (hsub : Dur.sub_fits P.wrap atime ⟨env.caller tr.length, pc⟩ = true)
    (hceil : ceil_fits P.wrap P.steady_period
      (Dur.sub id atime ⟨env.caller tr.length, pc⟩) = true)
    (hadd : Dur.add_fits P.wrap ⟨env.steady (tr.length + 1), P.steady_period⟩
      (ceil id P.steady_period (Dur.sub id atime ⟨env.caller tr.length, pc⟩)) = true) :
    __s_atime P.wrap P.steady_period ⟨env.caller tr.length, pc⟩
        ⟨env.steady (tr.length + 1), P.steady_period⟩ atime
      = ⟨env.steady (tr.length + 1)
          + (ceil id P.steady_period (Dur.sub id atime ⟨env.caller tr.length, pc⟩)).count,
         P.steady_period⟩
    ∧ (∀ tr1, (wait_until_generic P env pc tr atime = .abort tr1
          ∨ ∃ st, wait_until_generic P env pc tr atime = .ret st tr1) →
        Event.cond_timedwait
          (__ts P.wrap ⟨env.steady (tr.length + 1)
            + (ceil id P.steady_period (Dur.sub id atime ⟨env.caller tr.length, pc⟩)).count,
            P.steady_period⟩).1
          (__ts P.wrap ⟨env.steady (tr.length + 1)
            + (ceil id P.steady_period (Dur.sub id atime ⟨env.caller tr.length, pc⟩)).count,
            P.steady_period⟩).2
          (env.os (tr.length + 2)) ∈ tr1)
    ∧ atime.val - (Dur.mk (env.caller tr.length) pc).val
        ≤ (__s_atime P.wrap P.steady_period ⟨env.caller tr.length, pc⟩
              ⟨env.steady (tr.length + 1), P.steady_period⟩ atime).val
          - (Dur.mk (env.steady (tr.length + 1)) P.steady_period).val
    ∧ (__s_atime P.wrap P.steady_period ⟨env.caller tr.length, pc⟩
              ⟨env.steady (tr.length + 1), P.steady_period⟩ atime).val
          - (Dur.mk (env.steady (tr.length + 1)) P.steady_period).val
        < atime.val - (Dur.mk (env.caller tr.length) pc).val + P.steady_period.val := by
  have hb := ceil_val_bounds P.steady_period (Dur.sub id atime ⟨env.caller tr.length, pc⟩)
  rw [Dur.sub_val] at hb
  have hfit := s_atime_of_fits P.wrap P.steady_period ⟨env.caller tr.length, pc⟩
    ⟨env.steady (tr.length + 1), P.steady_period⟩ atime hsub hceil hadd
  have hv : (__s_atime P.wrap P.steady_period ⟨env.caller tr.length, pc⟩
      ⟨env.steady (tr.length + 1), P.steady_period⟩ atime).val
      = (Dur.mk (env.steady (tr.length + 1)) P.steady_period).val
        + (ceil id P.steady_period (Dur.sub id atime ⟨env.caller tr.length, pc⟩)).val := by
    rw [hfit]
    unfold __s_atime
    exact Dur.add_val _ _
  have he := hfit.trans (s_atime_eq P.steady_period ⟨env.caller tr.length, pc⟩ atime
    (env.steady (tr.length + 1)))
  refine ⟨he, ?_, by linarith [hb.1], by linarith [hb.2]⟩
  intro tr1 h
  rw [← he]
  by_cases hacc : env.os (tr.length + 2) = 0 ∨ env.os (tr.length + 2) = P.ETIMEDOUT
  · rw [wait_until_generic_of_accepted P env pc tr atime hacc] at h
    rcases h with h | ⟨st, h⟩
    · split_ifs at h
    · by_cases hlt : Dur.lt P.wrap ⟨env.steady (tr.length + 3), P.steady_period⟩
          (__s_atime P.wrap P.steady_period ⟨env.caller tr.length, pc⟩
            ⟨env.steady (tr.length + 1), P.steady_period⟩ atime) = true
      · rw [if_pos hlt] at h
        simp only [Res.ret.injEq] at h
        rw [← h.2]
        simp
      · rw [if_neg hlt] at h
        simp only [Res.ret.injEq] at h
        rw [← h.2]
        simp
  · rw [wait_until_generic_of_rejected P env pc tr atime hacc] at h
    rcases h with h | ⟨st, h⟩
    · simp only [Res.abort.injEq] at h
      rw [← h]
      simp
    · simp at h

/-- C4, amended. A `wait_until` whose deadline is already in the past returns `timeout`
when no step of its arithmetic overflows the 64-bit counts. For the `steady_clock`
overload: if the conversions of the comparison with the deadline do not overflow, the
deadline is not after the monotonic clock at the instant of the call and the clock does
not decrease until it is sampled after the OS call, the result is `timeout` for every
accepted return code. For the overload for any clock: if the subtraction
`deadline - now_caller`, its rounded-up conversion, the addition to `now_monotonic` and
the conversions of the final comparison do not overflow, the deadline is not after the
caller's clock sampled at entry and neither clock decreases between its entry sample and
its sample after the OS call, then the rounded-up delta is not positive, the translated
deadline is not after the monotonic sample of entry, and the result is `timeout` for every
accepted return code. -/
theorem wait_until_past_deadline (P : Platform) (env : Env) (pc : Period) (tr : List Event)
    (atime : Dur) :
    ((env.os tr.length = 0 ∨ env.os tr.length = P.ETIMEDOUT) →
      Dur.lt_fits P.wrap ⟨env.steady (tr.length + 1), P.steady_period⟩ atime = true →
      atime.val ≤ (Dur.mk (env.steady tr.length) P.steady_period).val →
      env.steady tr.length ≤ env.steady (tr.length + 1) →
      ∃ tr1, wait_until_steady P env tr atime = .ret .timeout tr1)
    ∧ ((env.os (tr.length + 2) = 0 ∨ env.os (tr.length + 2) = P.ETIMEDOUT) →
      Dur.sub_fits P.wrap atime ⟨env.caller tr.length, pc⟩ = true →
      ceil_fits P.wrap P.steady_period (Dur.sub id atime ⟨env.caller tr.length, pc⟩) = true →
      Dur.add_fits P.wrap ⟨env.steady (tr.length + 1), P.steady_period⟩
        (ceil id P.steady_period (Dur.sub id atime ⟨env.caller tr.length, pc⟩)) = true →
      Dur.lt_fits P.wrap ⟨env.caller (tr.length + 4), pc⟩ atime = true →
      atime.val ≤ (Dur.mk (env.caller tr.length) pc).val →
      env.steady (tr.length + 1) ≤ env.steady (tr.length + 3) →
      env.caller tr.length ≤ env.caller (tr.length + 4) →
      (ceil id P.steady_period (Dur.sub id atime ⟨env.caller tr.length, pc⟩)).count ≤ 0
      ∧ (__s_atime P.wrap P.steady_period ⟨env.caller tr.length, pc⟩
            ⟨env.steady (tr.length + 1), P.steady_period⟩ atime).val
          ≤ (Dur.mk (env.steady (tr.length + 1)) P.steady_period).val
      ∧ ∃ tr1, wait_until_generic P env pc tr atime = .ret .timeout tr1) := by
  constructor
  · intro hacc hfit hpast hmono
    unfold wait_until_steady
    rw [wait_until_impl_of_accepted P env tr atime hacc]
    have h1 := (Dur.val_le_val_iff _ _ P.steady_period).2 hmono
    have h2 : Dur.lt P.wrap ⟨env.steady (tr.length + 1), P.steady_period⟩ atime = false :=
      (Dur.lt_iff_of_fits P.wrap _ atime hfit).2.2 (le_trans hpast h1)
    rw [h2]
    exact ⟨_, rfl⟩
  · intro hacc hsub hceil hadd hfit hpast hs hc
    have hT := P.steady_period.val_pos
    have hb := ceil_val_bounds P.steady_period (Dur.sub id atime ⟨env.caller tr.length, pc⟩)
    rw [Dur.sub_val] at hb
    have hp := ceil_period id P.steady_period (Dur.sub id atime ⟨env.caller tr.length, pc⟩)
    have hcv : (ceil id P.steady_period (Dur.sub id atime ⟨env.caller tr.length, pc⟩)).val
        = ((ceil id P.steady_period (Dur.sub id atime ⟨env.caller tr.length, pc⟩)).count : ℚ)
          * P.steady_period.val := by
      rw [Dur.val_eq, hp]
    have hcnt :
        (ceil id P.steady_period (Dur.sub id atime ⟨env.caller tr.length, pc⟩)).count ≤ 0 := by
      have h1 :
          ((ceil id P.steady_period (Dur.sub id atime ⟨env.caller tr.length, pc⟩)).count : ℚ)
            * P.steady_period.val < (1 : ℚ) * P.steady_period.val := by
        rw [← hcv]; linarith [hb.2]
      have h2 := lt_of_mul_lt_mul_right h1 hT.le
      have h3 :
          (ceil id P.steady_period (Dur.sub id atime ⟨env.caller tr.length, pc⟩)).count < 1 := by
        exact_mod_cast h2
      omega
    have he := (s_atime_of_fits P.wrap P.steady_period ⟨env.caller tr.length, pc⟩
      ⟨env.steady (tr.length + 1), P.steady_period⟩ atime hsub hceil hadd).trans
      (s_atime_eq P.steady_period ⟨env.caller tr.length, pc⟩ atime
        (env.steady (tr.length + 1)))
    have hsat : (__s_atime P.wrap P.steady_period ⟨env.caller tr.length, pc⟩
        ⟨env.steady (tr.length + 1), P.steady_period⟩ atime).val
        ≤ (Dur.mk (env.steady (tr.length + 1)) P.steady_period).val := by
      rw [he, Dur.val_le_val_iff]
      omega
    refine ⟨hcnt, hsat, ?_⟩
    rw [wait_until_generic_of_accepted P env pc tr atime hacc]
    have h2 : Dur.lt P.wrap ⟨env.steady (tr.length + 3), P.steady_period⟩
        (__s_atime P.wrap P.steady_period ⟨env.caller tr.length, pc⟩
          ⟨env.steady (tr.length + 1), P.steady_period⟩ atime) = false := by
      rw [he, Dur.lt_same]
      simp only [decide_eq_false_iff_not, not_lt]
      omega
    have h3 := (Dur.val_le_val_iff _ _ pc).2 hc
    have h4 : Dur.lt P.wrap ⟨env.caller (tr.length + 4), pc⟩ atime = false :=
      (Dur.lt_iff_of_fits P.wrap _ atime hfit).2.2 (le_trans hpast h3)
    rw [h2, h4]
    exact ⟨_, rfl⟩

/-- C6. For every predicate, `wait(lock, predicate)` returns without any call of
`wait(lock)` when the predicate is true on its first evaluation. Every returning run
consists of some number `n` of rounds, each a false evaluation of the predicate followed by
one call of `wait(lock)`, and then an evaluation that yields true, directly after which it
returns: the calls of `wait(lock)` it adds are as many as the false evaluations it adds.
Conversely, when the predicate first yields true at its evaluation number `n` and the waits
before succeed, the call returns for every fuel above `n`. -/
theorem wait_pred_rounds (env : Env) (tr : List Event) :
    (env.pred tr.length = true →
      ∀ fuel, wait_pred env (fuel + 1) tr = .ret () (.predicate true :: tr))
    ∧ (∀ fuel tr1, wait_pred env fuel tr = .ret () tr1 →
        ∃ n, tr1 = .predicate true :: wait_rounds n tr
          ∧ cond_waits tr1 = cond_waits tr + n
          ∧ false_evaluations tr1 = false_evaluations tr + n
          ∧ env.pred (tr.length + 2 * n) = true
          ∧ ∀ i, i < n → env.pred (tr.length + 2 * i) = false
              ∧ env.os (tr.length + 2 * i + 1) = 0)
    ∧ (∀ n fuel, n < fuel → env.pred (tr.length + 2 * n) = true →
        (∀ i, i < n → env.pred (tr.length + 2 * i) = false
          ∧ env.os (tr.length + 2 * i + 1) = 0) →
        wait_pred env fuel tr = .ret () (.predicate true :: wait_rounds n tr)) := by
  refine ⟨fun h fuel => wait_pred_of_true env fuel tr h, ?_, ?_⟩
  · intro fuel tr1 h
    obtain ⟨n, _, htr, hpn, hall⟩ := wait_pred_ret env fuel tr tr1 h
    refine ⟨n, htr, ?_, ?_, hpn, hall⟩
    · rw [htr]
      simp only [cond_waits]
      exact (wait_rounds_counts n tr).1
    · rw [htr]
      simp only [false_evaluations]
      exact (wait_rounds_counts n tr).2
  · intro n fuel hfuel hpn hall
    exact wait_pred_returns env n tr fuel hfuel hpn hall

/-- C7, amended. For every duration `D` whose rounded-up conversion to the resolution of
the monotonic clock and whose addition to the clock sample do not overflow the 64-bit
counts, `wait_for(lock, D)` and `wait_for(lock, D, predicate)` sample the monotonic clock
once, getting `t0`, and then are the `steady_clock` overload of `wait_until`, respectively
its predicate form, called with the deadline `t0 + ceil(D)`, with the exact `ceil`; in the
predicate form every OS timed wait of the run is given that one deadline. -/
theorem wait_for_deadline_once (P : Platform) (env : Env) (tr : List Event) (rtime : Dur)
    (hceil : ceil_fits P.wrap P.steady_period rtime = true)
    (hadd : Dur.add_fits P.wrap ⟨env.steady tr.length, P.steady_period⟩
      (ceil id P.steady_period rtime) = true) :
    wait_for P env tr rtime
      = wait_until_steady P env (.steady_now (env.steady tr.length) :: tr)
          ⟨env.steady tr.length + (ceil id P.steady_period rtime).count, P.steady_period⟩
    ∧ (∀ fuel, wait_for_pred P env rtime fuel tr
        = wait_until_pred P env .steady
            ⟨env.steady tr.length + (ceil id P.steady_period rtime).count, P.steady_period⟩
            fuel (.steady_now (env.steady tr.length) :: tr))
    ∧ (∀ fuel tr1, (wait_for_pred P env rtime fuel tr).trace = some tr1 →
        ∃ new, tr1 = new ++ .steady_now (env.steady tr.length) :: tr
          ∧ ∀ s n r, Event.cond_timedwait s n r ∈ new →
              (s, n) = __ts P.wrap
                ⟨env.steady tr.length + (ceil id P.steady_period rtime).count,
                  P.steady_period⟩) := by
  have hD := wait_for_deadline_eq P.wrap P.steady_period (env.steady tr.length) rtime
    hceil hadd
  have h2 : ∀ fuel, wait_for_pred P env rtime fuel tr
      = wait_until_pred P env .steady
          ⟨env.steady tr.length + (ceil id P.steady_period rtime).count, P.steady_period⟩
          fuel (.steady_now (env.steady tr.length) :: tr) := by
    intro fuel
    unfold wait_for_pred
    simp only
    rw [hD]
  refine ⟨?_, h2, ?_⟩
  · unfold wait_for wait_until
    simp only
    rw [hD]
  · intro fuel tr1 h
    rw [h2] at h
    exact wait_until_pred_steady_trace P env _ fuel _ tr1 h

/-- C10. The deadline one nanosecond before the epoch of the monotonic clock: `__ts` gives
`tv_sec = 0` and `tv_nsec = -1`, which sums to the deadline but is not a valid timespec
since `tv_nsec` is negative; when the OS rejects it with an error code other than
`ETIMEDOUT` (here `EINVAL`, 22), `__wait_until_impl` aborts. -/
theorem ts_before_epoch_negative_nsec :
    __ts wrap64 ⟨-1, nanoseconds⟩ = (0, -1)
    ∧ (__ts wrap64 ⟨-1, nanoseconds⟩).1 * 1000000000 + (__ts wrap64 ⟨-1, nanoseconds⟩).2 = -1
    ∧ ¬ (0 ≤ (__ts wrap64 ⟨-1, nanoseconds⟩).2)
    ∧ ∀ env : Env, env.os 0 = 22 →
        __wait_until_impl linux env [] ⟨-1, nanoseconds⟩
          = .abort [.cond_timedwait 0 (-1) 22] := by
  have h : __ts wrap64 ⟨-1, nanoseconds⟩ = (0, -1) := by
    rw [ts_nanoseconds wrap64 (-1) (by decide) (by decide)]
    decide
  refine ⟨h, ?_, ?_, ?_⟩
  · rw [h]; decide
  · rw [h]; decide
  · intro env henv
    have hr : ¬ (env.os ([] : List Event).length = 0
        ∨ env.os ([] : List Event).length = linux.ETIMEDOUT) := by
      simp only [List.length_nil, henv]
      decide
    rw [wait_until_impl_of_rejected linux env [] _ hr]
    show Res.abort [Event.cond_timedwait (__ts wrap64 ⟨-1, nanoseconds⟩).1
      (__ts wrap64 ⟨-1, nanoseconds⟩).2 (env.os 0)] = _
    rw [h, henv]

/-! ## Concrete runs -/

/-- Witness of C4: in `env_uptime`, on the 64-bit platform, a `steady_clock` deadline of
999 s and a caller deadline of 4000 ms are both in the past at entry, nothing overflows,
the timespecs `{999, 0}` and `{999, 1}` are valid, and both overloads report `timeout`. -/
theorem wait_until_past_deadline_witness :
    (∃ tr1, wait_until_steady linux env_uptime [] ⟨999000000000, nanoseconds⟩
        = .ret .timeout tr1)
    ∧ (∃ tr1, wait_until_generic linux env_uptime milliseconds [] ⟨4000, milliseconds⟩
        = .ret .timeout tr1) :=
  ⟨(wait_until_past_deadline linux env_uptime milliseconds [] ⟨999000000000, nanoseconds⟩).1
      (by decide) (by decide) ((Dur.lt_eq_false_iff _ _).1 (by decide)) (by decide),
   ((wait_until_past_deadline linux env_uptime milliseconds [] ⟨4000, milliseconds⟩).2
      (by decide) (by decide) (by decide) (by decide) (by decide)
      ((Dur.lt_eq_false_iff _ _).1 (by decide)) (by decide) (by decide)).2.2⟩

/-- Counterexample to C4 as stated: in `env_wall`, on the 64-bit platform, the deadline
`system_clock::time_point::min()` is in the past and both clocks increase, but the
subtraction of the entry sample wraps to a delta of +7429991560272697231 ns; the waiter is
woken with return code 0 before that translated deadline and the call reports
`no_timeout`. -/
theorem wait_until_past_deadline_overflow :
    (env_wall.os 2 = 0 ∨ env_wall.os 2 = linux.ETIMEDOUT)
    ∧ (Dur.mk (-9223372036854775808) nanoseconds).val
        ≤ (Dur.mk (env_wall.caller 0) nanoseconds).val
    ∧ env_wall.steady 1 ≤ env_wall.steady 3
    ∧ env_wall.caller 0 ≤ env_wall.caller 4
    ∧ (Dur.sub linux.wrap ⟨-9223372036854775808, nanoseconds⟩
        ⟨env_wall.caller 0, nanoseconds⟩).count = 7429991560272697231
    ∧ wait_until_generic linux env_wall nanoseconds [] ⟨-9223372036854775808, nanoseconds⟩
        = .ret .no_timeout
            [.steady_now 1000000000003, .cond_timedwait 7429992560 272697232 0,
              .steady_now 1000000000001, .caller_now 1793380476582078577] :=
  ⟨by decide, (Dur.val_le_val_iff _ _ _).2 (by decide), by decide, by decide, by decide,
    by decide⟩

/-- Witness of C6: in `env_two_rounds` the predicate is false twice and then true; the call
returns after two waits, with fuel 3. -/
theorem wait_pred_rounds_witness :
    wait_pred env_two_rounds 3 []
      = .ret () [.predicate true, .cond_wait 0, .predicate false, .cond_wait 0,
          .predicate false] :=
  (wait_pred_rounds env_two_rounds []).2.2 2 3 (by decide) (by decide) (by decide)

/-- Witness of C7: in `env_two_rounds`, on the 64-bit platform, `wait_for` of one
millisecond overflows nowhere; it samples the clock at 100 ns, waits until `100 + 10^6` ns
and, woken before that, reports `no_timeout`. -/
theorem wait_for_deadline_once_witness :
    ceil_fits linux.wrap linux.steady_period ⟨1, milliseconds⟩ = true
    ∧ Dur.add_fits linux.wrap
        ⟨env_two_rounds.steady ([] : List Event).length, linux.steady_period⟩
        (ceil id linux.steady_period ⟨1, milliseconds⟩) = true
    ∧ wait_for linux env_two_rounds [] ⟨1, milliseconds⟩
      = wait_until_steady linux env_two_rounds
          (.steady_now (env_two_rounds.steady ([] : List Event).length) :: [])
          ⟨env_two_rounds.steady ([] : List Event).length
            + (ceil id linux.steady_period ⟨1, milliseconds⟩).count, linux.steady_period⟩
    ∧ wait_for linux env_two_rounds [] ⟨1, milliseconds⟩
      = .ret .no_timeout
          [.steady_now 102, .cond_timedwait 0 1000100 0, .steady_now 100] :=
  ⟨by decide, by decide,
    (wait_for_deadline_once linux env_two_rounds [] ⟨1, milliseconds⟩
      (by decide) (by decide)).1,
    by decide⟩

/-- Counterexample to C7 as stated: in `env_five`, on the 64-bit platform,
`wait_for(lock, seconds::max())` converts the duration to -10^9 ns by a wrapped product,
hands the OS the deadline `{4, 0}`, one second before the clock sample of 5 s, and reports
`timeout`; this is not what `wait_until` returns for the deadline `t0 + ceil(D)`. -/
theorem wait_for_deadline_overflow :
    (ceil linux.wrap linux.steady_period ⟨9223372036854775807, seconds⟩).count = -1000000000
    ∧ wait_for linux env_five [] ⟨9223372036854775807, seconds⟩
      = .ret .timeout
          [.steady_now 5000000002, .cond_timedwait 4 0 110, .steady_now 5000000000]
    ∧ wait_for linux env_five [] ⟨9223372036854775807, seconds⟩
      ≠ wait_until_steady linux env_five (.steady_now (env_five.steady 0) :: [])
          ⟨env_five.steady 0
            + (ceil id linux.steady_period ⟨9223372036854775807, seconds⟩).count,
            linux.steady_period⟩ :=
  ⟨by decide, by decide, by decide⟩

/-- Witness of C8: in `env_skew`, on the 64-bit platform, with a caller clock in
milliseconds reading 5000 and the deadline 5001 ms, nothing overflows and the translated
interval is not shorter than the caller's interval of one millisecond. -/
theorem translated_deadline_interval_witness :
    Dur.sub_fits linux.wrap ⟨5001, milliseconds⟩
        ⟨env_skew.caller ([] : List Event).length, milliseconds⟩ = true
    ∧ (Dur.mk 5001 milliseconds).val
          - (Dur.mk (env_skew.caller ([] : List Event).length) milliseconds).val
        ≤ (__s_atime linux.wrap linux.steady_period
              ⟨env_skew.caller ([] : List Event).length, milliseconds⟩
              ⟨env_skew.steady (([] : List Event).length + 1), linux.steady_period⟩
              ⟨5001, milliseconds⟩).val
          - (Dur.mk (env_skew.steady (([] : List Event).length + 1))
              linux.steady_period).val :=
  ⟨by decide,
    (translated_deadline_interval linux env_skew milliseconds [] ⟨5001, milliseconds⟩
      (by decide) (by decide) (by decide)).2.2.1⟩

/-- Counterexample to C8 as stated: in `env_five`, on the 64-bit platform, with a caller
clock that counts seconds and reads 0 and a deadline 10^10 s ahead, the conversion of the
delta to nanoseconds wraps to -8446744073709551616 ns, so the translated deadline is
before the monotonic sample of entry and the translated interval is shorter than the
caller's. -/
theorem translated_deadline_overflow :
    (ceil linux.wrap linux.steady_period
        (Dur.sub linux.wrap ⟨10000000000, seconds⟩ ⟨env_five.caller 0, seconds⟩)).count
      = -8446744073709551616
    ∧ (__s_atime linux.wrap linux.steady_period ⟨env_five.caller 0, seconds⟩
        ⟨env_five.steady 1, linux.steady_period⟩ ⟨10000000000, seconds⟩).count
      = -8446744068709551615
    ∧ ¬ ((Dur.mk 10000000000 seconds).val - (Dur.mk (env_five.caller 0) seconds).val
        ≤ (__s_atime linux.wrap linux.steady_period ⟨env_five.caller 0, seconds⟩
              ⟨env_five.steady 1, linux.steady_period⟩ ⟨10000000000, seconds⟩).val
          - (Dur.mk (env_five.steady 1) linux.steady_period).val) := by
  have hc : (__s_atime linux.wrap linux.steady_period ⟨env_five.caller 0, seconds⟩
      ⟨env_five.steady 1, linux.steady_period⟩ ⟨10000000000, seconds⟩).count
      = -8446744068709551615 := by decide
  have hp := s_atime_period linux.wrap linux.steady_period ⟨env_five.caller 0, seconds⟩
    ⟨10000000000, seconds⟩ (env_five.steady 1)
  refine ⟨by decide, hc, ?_⟩
  rw [Dur.val_eq (__s_atime linux.wrap linux.steady_period ⟨env_five.caller 0, seconds⟩
    ⟨env_five.steady 1, linux.steady_period⟩ ⟨10000000000, seconds⟩), hc, hp]
  norm_num [Dur.val, Period.val, linux, nanoseconds, seconds, env_five]

end cyan
